import Mathlib

/-!
Verification of the `vvvv` command-line parsing library.

The development shallowly embeds the library's core components:

* the argument lexer (`src/token.rs`): `Token`, `Parse`, `Parse.next`,
  `next_value`, and the derived full-run functions `lexFrom` / `lex`;
* the incremental builder protocol and the accumulating driver
  (`src/lib.rs`): `PollInit`, `from_args`;
* the lazy driver (`src/from_args.rs`): `FromArgsIter`;
* the word-wrap engine (`src/dumb_wrap.rs`): `Item`, `split_w`, `Wrap`.

Rust strings are modelled as lists of characters (`Arg := List Char`);
byte indices of the source become character indices, which is faithful
because the source only ever splits at character boundaries.  Iterators
are modelled as explicit state plus a step function returning
`Option (item × state)`; full runs are defined with an explicit fuel
argument together with a proof that any sufficiently large fuel gives
the same result, so every definition is executable.
-/

namespace Vvvv

/-- A raw command-line argument: a Rust `&str`, modelled as its characters. -/
abbrev Arg := List Char

/-- A single token of command line arguments (src/token.rs, `enum Token`). -/
inductive Token where
  /-- Positional argument, i.e. just `something`. -/
  | Positional (s : Arg)
  /-- Short option, i.e. `-k`, `-k value`. -/
  | Short (key : Char) (value : Option Arg)
  /-- Long option, i.e. `--key`, `--key value`. -/
  | Long (key : Arg) (value : Option Arg)
  /-- Double dash, i.e. `--`. -/
  | DashDash
deriving DecidableEq, Repr

/-- src/token.rs `fn next_value`: if the next argument in the iterator is
`"-"` or does not start with `'-'`, consume and return it, otherwise leave
the iterator unchanged.  The mutated `Peekable` iterator is modelled by
returning the remaining argument list alongside the optional value. -/
def next_value (args : List Arg) : Option Arg × List Arg :=
  match args with
  | [] => (none, [])
  | x :: rest =>
    if x = ['-'] ∨ (['-'].isPrefixOf x) = false then (some x, rest)
    else (none, x :: rest)

/-- Lexer state (src/token.rs, `struct Parse`): the remaining raw arguments,
the queued remainder of a short-option cluster, and the positional-only flag. -/
structure Parse where
  args : List Arg
  shorts : List Char
  posOnly : Bool
deriving DecidableEq, Repr

/-- One step of the lexer (src/token.rs, `impl Iterator for Parse`, `fn next`).
Returns the emitted token together with the successor state, or `none` when
the arguments are exhausted. -/
def Parse.next : Parse → Option (Token × Parse)
  | ⟨args, c :: restShorts, posOnly⟩ =>
    -- queued cluster characters are emitted first, with no value lookahead
    some (.Short c none, ⟨args, restShorts, posOnly⟩)
  | ⟨[], [], _⟩ => none
  | ⟨item :: rest, [], posOnly⟩ =>
    if posOnly then some (.Positional item, ⟨rest, [], posOnly⟩)
    else if item = ['-', '-'] then some (.DashDash, ⟨rest, [], true⟩)
    else if (['-', '-'].isPrefixOf item) = true then
      let (v, rest2) := next_value rest
      some (.Long (item.drop 2) v, ⟨rest2, [], posOnly⟩)
    else if (['-'].isPrefixOf item) = true then
      match item.drop 1 with
      | [] => some (.Positional ['-'], ⟨rest, [], posOnly⟩)
      | [k] =>
        let (v, rest2) := next_value rest
        some (.Short k v, ⟨rest2, [], posOnly⟩)
      | k :: more => some (.Short k none, ⟨rest, more, posOnly⟩)
    else some (.Positional item, ⟨rest, [], posOnly⟩)

/-- Termination measure for the lexer: queued cluster characters plus, for
every remaining argument, its length plus one.  Every `Parse.next` step
strictly decreases it. -/
def Parse.size (p : Parse) : Nat :=
  p.shorts.length + (p.args.map fun a => a.length + 1).sum

theorem next_value_cases (l : List Arg) :
    next_value l = (none, l) ∨
      ∃ x rest, l = x :: rest ∧ next_value l = (some x, rest) := by
  match l with
  | [] => exact Or.inl rfl
  | x :: rest =>
    by_cases h : x = ['-'] ∨ (['-'].isPrefixOf x) = false
    · exact Or.inr ⟨x, rest, rfl, by simp [next_value, h]⟩
    · exact Or.inl (by simp [next_value, h])

theorem next_value_snd_suffix (l : List Arg) :
    (next_value l).2 = l ∨ ∃ x, l = x :: (next_value l).2 := by
  rcases next_value_cases l with h | ⟨x, rest, hl, h⟩
  · exact Or.inl (by rw [h])
  · exact Or.inr ⟨x, by rw [h]; exact hl⟩

/-- When the lexer halts, everything has been consumed. -/
theorem Parse.next_none {p : Parse} (h : p.next = none) :
    p.args = [] ∧ p.shorts = [] := by
  obtain ⟨args, shorts, po⟩ := p
  match shorts, args with
  | c :: cs, args => simp [Parse.next] at h
  | [], [] => exact ⟨rfl, rfl⟩
  | [], a :: rest =>
    exfalso
    simp only [Parse.next] at h
    split at h
    · exact Option.noConfusion h
    · split at h
      · exact Option.noConfusion h
      · split at h
        · exact Option.noConfusion h
        · split at h
          · split at h
            · exact Option.noConfusion h
            · exact Option.noConfusion h
            · exact Option.noConfusion h
          · exact Option.noConfusion h

/-- Each lexer step removes a (possibly empty) prefix of the remaining
arguments: the successor's argument list is a suffix of the current one. -/
theorem Parse.next_args_suffix {p : Parse} {t : Token} {q : Parse}
    (h : p.next = some (t, q)) : ∃ pre, p.args = pre ++ q.args := by
  obtain ⟨args, shorts, po⟩ := p
  match shorts, args with
  | c :: cs, args =>
    simp only [Parse.next] at h
    injection h with h1
    injection h1 with ht hq
    subst hq
    exact ⟨[], rfl⟩
  | [], [] => simp [Parse.next] at h
  | [], a :: rest =>
    simp only [Parse.next] at h
    split at h
    · injection h with h1; injection h1 with ht hq; subst hq; exact ⟨[a], rfl⟩
    · split at h
      · injection h with h1; injection h1 with ht hq; subst hq; exact ⟨[a], rfl⟩
      · split at h
        · injection h with h1; injection h1 with ht hq; subst hq
          rcases next_value_cases rest with hc | ⟨x, r2, hrest, hc⟩
          · exact ⟨[a], by simp [hc]⟩
          · refine ⟨[a, x], ?_⟩
            rw [hrest] at hc ⊢
            simp [hc]
        · split at h
          · split at h
            · injection h with h1; injection h1 with ht hq; subst hq
              exact ⟨[a], rfl⟩
            · injection h with h1; injection h1 with ht hq; subst hq
              rcases next_value_cases rest with hc | ⟨x, r2, hrest, hc⟩
              · exact ⟨[a], by simp [hc]⟩
              · refine ⟨[a, x], ?_⟩
                rw [hrest] at hc ⊢
                simp [hc]
            · injection h with h1; injection h1 with ht hq; subst hq
              exact ⟨[a], rfl⟩
          · injection h with h1; injection h1 with ht hq; subst hq
            exact ⟨[a], rfl⟩

/-- Every lexer step strictly decreases the measure `Parse.size`, so a full
run of the iterator is finite. -/
theorem Parse.next_size_lt {p : Parse} {t : Token} {q : Parse}
    (h : p.next = some (t, q)) : q.size < p.size := by
  obtain ⟨args, shorts, po⟩ := p
  match shorts, args with
  | c :: cs, args =>
    simp only [Parse.next] at h
    injection h with h1
    injection h1 with ht hq
    subst hq
    simp [Parse.size]
  | [], [] => simp [Parse.next] at h
  | [], a :: rest =>
    simp only [Parse.next] at h
    split at h
    · injection h with h1; injection h1 with ht hq; subst hq
      simp [Parse.size] <;> omega
    · split at h
      · injection h with h1; injection h1 with ht hq; subst hq
        simp [Parse.size] <;> omega
      · split at h
        · injection h with h1; injection h1 with ht hq; subst hq
          rcases next_value_cases rest with hc | ⟨x, r2, hrest, hc⟩
          · simp [Parse.size, hc] <;> omega
          · rw [hrest] at hc ⊢
            simp [Parse.size, hc] <;> omega
        · split at h
          · split at h
            · injection h with h1; injection h1 with ht hq; subst hq
              simp [Parse.size] <;> omega
            · injection h with h1; injection h1 with ht hq; subst hq
              rcases next_value_cases rest with hc | ⟨x, r2, hrest, hc⟩
              · simp [Parse.size, hc] <;> omega
              · rw [hrest] at hc ⊢
                simp [Parse.size, hc] <;> omega
            · next k more h1 h2 =>
                have heq : a.drop 1 = k :: more := by assumption
                injection h with h3; injection h3 with ht hq; subst hq
                have hlen : a.length - 1 = more.length + 1 := by
                  have := congrArg List.length heq
                  simpa using this
                simp [Parse.size] <;> omega
          · injection h with h1; injection h1 with ht hq; subst hq
            simp [Parse.size] <;> omega

/-- Full run of the lexer from a given state, with explicit fuel; `fuel`
bounds the number of emitted tokens.  Any `fuel` above `Parse.size` gives
the true, fuel-independent run (see `lexFromAux_irrel`). -/
def lexFromAux : Nat → Parse → List Token
  | 0, _ => []
  | fuel + 1, p =>
    match p.next with
    | none => []
    | some (t, q) => t :: lexFromAux fuel q

theorem lexFromAux_irrel :
    ∀ n m p, Parse.size p < n → Parse.size p < m →
      lexFromAux n p = lexFromAux m p := by
  intro n
  induction n with
  | zero => intro m p hn; omega
  | succ n ih =>
    intro m p hn hm
    match m with
    | 0 => omega
    | m + 1 =>
      show (match p.next with
            | none => []
            | some (t, q) => t :: lexFromAux n q) =
          (match p.next with
            | none => []
            | some (t, q) => t :: lexFromAux m q)
      match hs : p.next with
      | none => rfl
      | some (t, q) =>
        have hq := Parse.next_size_lt hs
        show t :: lexFromAux n q = t :: lexFromAux m q
        rw [ih m q (by omega) (by omega)]

/-- The token sequence the lexer emits from state `p`
(src/token.rs, `impl Iterator for Parse` run to exhaustion). -/
def lexFrom (p : Parse) : List Token :=
  lexFromAux (p.size + 1) p

/-- src/token.rs `Token::parse`: the initial lexer state for an argument
list (empty cluster queue, positional-only mode off). -/
def Token.parse (args : List Arg) : Parse :=
  ⟨args, [], false⟩

/-- Lexing an argument list: all tokens emitted by `Token::parse(args)`. -/
def lex (args : List Arg) : List Token :=
  lexFrom (Token.parse args)

/-- One-step unfolding of `lexFrom`. -/
theorem lexFrom_eq (p : Parse) :
    lexFrom p =
      match p.next with
      | none => []
      | some (t, q) => t :: lexFrom q := by
  show lexFromAux (p.size + 1) p = _
  match hs : p.next with
  | none =>
    show (match p.next with
          | none => []
          | some (t, q) => t :: lexFromAux p.size q) = _
    rw [hs]
  | some (t, q) =>
    show (match p.next with
          | none => []
          | some (t, q) => t :: lexFromAux p.size q) = _
    rw [hs]
    have hq := Parse.next_size_lt hs
    show t :: lexFromAux p.size q = t :: lexFromAux (q.size + 1) q
    rw [lexFromAux_irrel p.size (q.size + 1) q (by omega) (by omega)]

theorem lexFrom_none {p : Parse} (h : p.next = none) : lexFrom p = [] := by
  rw [lexFrom_eq, h]

theorem lexFrom_some {p : Parse} {t : Token} {q : Parse}
    (h : p.next = some (t, q)) : lexFrom p = t :: lexFrom q := by
  rw [lexFrom_eq, h]

/-- Instrumented lexer run: each emitted token is paired with the raw
arguments the corresponding `Parse.next` step consumed from the argument
cursor (the prefix of `p.args` that disappeared).  Queued cluster
characters consume nothing; a token that performed value lookahead consumes
two raw arguments. -/
def lexConsumedAux : Nat → Parse → List (Token × List Arg)
  | 0, _ => []
  | fuel + 1, p =>
    match p.next with
    | none => []
    | some (t, q) =>
      (t, p.args.take (p.args.length - q.args.length)) :: lexConsumedAux fuel q

theorem lexConsumedAux_irrel :
    ∀ n m p, Parse.size p < n → Parse.size p < m →
      lexConsumedAux n p = lexConsumedAux m p := by
  intro n
  induction n with
  | zero => intro m p hn; omega
  | succ n ih =>
    intro m p hn hm
    match m with
    | 0 => omega
    | m + 1 =>
      show (match p.next with
            | none => []
            | some (t, q) =>
              (t, p.args.take (p.args.length - q.args.length)) :: lexConsumedAux n q) =
          (match p.next with
            | none => []
            | some (t, q) =>
              (t, p.args.take (p.args.length - q.args.length)) :: lexConsumedAux m q)
      match hs : p.next with
      | none => rfl
      | some (t, q) =>
        have hq := Parse.next_size_lt hs
        show (t, _) :: lexConsumedAux n q = (t, _) :: lexConsumedAux m q
        rw [ih m q (by omega) (by omega)]

/-- The instrumented run of the lexer from state `p`. -/
def lexConsumedFrom (p : Parse) : List (Token × List Arg) :=
  lexConsumedAux (p.size + 1) p

/-- The instrumented run of the lexer on an argument list. -/
def lexConsumed (args : List Arg) : List (Token × List Arg) :=
  lexConsumedFrom (Token.parse args)

theorem lexConsumedFrom_eq (p : Parse) :
    lexConsumedFrom p =
      match p.next with
      | none => []
      | some (t, q) =>
        (t, p.args.take (p.args.length - q.args.length)) :: lexConsumedFrom q := by
  show lexConsumedAux (p.size + 1) p = _
  match hs : p.next with
  | none =>
    show (match p.next with
          | none => []
          | some (t, q) =>
            (t, p.args.take (p.args.length - q.args.length)) :: lexConsumedAux p.size q) = _
    rw [hs]
  | some (t, q) =>
    show (match p.next with
          | none => []
          | some (t, q) =>
            (t, p.args.take (p.args.length - q.args.length)) :: lexConsumedAux p.size q) = _
    rw [hs]
    have hq := Parse.next_size_lt hs
    show (t, _) :: lexConsumedAux p.size q = (t, _) :: lexConsumedAux (q.size + 1) q
    rw [lexConsumedAux_irrel p.size (q.size + 1) q (by omega) (by omega)]

/-- The consumed prefix recorded by the instrumentation is exact: the raw
arguments of a state are the recorded prefix followed by the successor's
arguments. -/
theorem Parse.next_take_consumed {p : Parse} {t : Token} {q : Parse}
    (h : p.next = some (t, q)) :
    p.args = p.args.take (p.args.length - q.args.length) ++ q.args := by
  obtain ⟨pre, hpre⟩ := Parse.next_args_suffix h
  rw [hpre]
  have hlen : (pre ++ q.args).length - q.args.length = pre.length := by
    simp
  rw [hlen, List.take_left]

/-- Strong-induction helper: facts about the instrumented run, proved for
all states below a fuel bound. -/
theorem lexConsumed_spec_aux :
    ∀ n p, Parse.size p < n →
      ((lexConsumedFrom p).map Prod.fst = lexFrom p ∧
        ((lexConsumedFrom p).map Prod.snd).join = p.args) := by
  intro n
  induction n with
  | zero => intro p hn; omega
  | succ n ih =>
    intro p hn
    match hs : p.next with
    | none =>
      obtain ⟨ha, -⟩ := Parse.next_none hs
      rw [lexConsumedFrom_eq, lexFrom_eq, hs, ha]
      exact ⟨rfl, rfl⟩
    | some (t, q) =>
      have hq := Parse.next_size_lt hs
      obtain ⟨ih1, ih2⟩ := ih q (by omega)
      rw [lexConsumedFrom_eq, lexFrom_eq, hs]
      refine ⟨by simpa using ih1, ?_⟩
      show p.args.take (p.args.length - q.args.length) ++
          ((lexConsumedFrom q).map Prod.snd).join = p.args
      rw [ih2]
      exact (Parse.next_take_consumed hs).symm

/-- C1.  Lexing accounts for every raw argument exactly once: pairing each
emitted token with the raw text its lexer step consumed, the first
projections are exactly the emitted token stream, and concatenating the
consumed raw arguments in emission order rebuilds the input argument list
with nothing dropped and nothing duplicated. -/
theorem lex_consumed_partitions_args (args : List Arg) :
    (lexConsumed args).map Prod.fst = lex args ∧
      ((lexConsumed args).map Prod.snd).join = args := by
  have h := lexConsumed_spec_aux (Parse.size ⟨args, [], false⟩ + 1) ⟨args, [], false⟩
    (by omega)
  exact h

/-- Queued cluster characters are drained first, one `Short` per character,
before the lexer looks at the next raw argument. -/
theorem lexFrom_shorts (sh : List Char) (args : List Arg) (po : Bool) :
    lexFrom ⟨args, sh, po⟩ =
      (sh.map fun c => Token.Short c none) ++ lexFrom ⟨args, [], po⟩ := by
  induction sh with
  | nil => rfl
  | cons c cs ih =>
    have hs : Parse.next ⟨args, c :: cs, po⟩ =
        some (Token.Short c none, ⟨args, cs, po⟩) := by
      cases args <;> rfl
    rw [lexFrom_some hs, ih]
    rfl

/-- In positional-only mode every remaining raw argument lexes verbatim to
`Positional`. -/
theorem lexFrom_posOnly (args : List Arg) :
    lexFrom ⟨args, [], true⟩ = args.map Token.Positional := by
  induction args with
  | nil => exact lexFrom_none rfl
  | cons a rest ih =>
    rw [lexFrom_some (rfl :
      Parse.next ⟨a :: rest, [], true⟩ = some (Token.Positional a, ⟨rest, [], true⟩)), ih]
    rfl

/-- C2.  An argument equal to `--`, met while not in positional-only mode
(queued cluster characters, which consume no raw argument, drain first),
lexes to a single `DashDash` and switches the lexer permanently into
positional-only mode: every following raw argument lexes verbatim to
`Positional`, even option-shaped ones such as `--opt` or `-x`. -/
theorem dashdash_forces_positional_mode (rest : List Arg) (sh : List Char) :
    lexFrom ⟨['-', '-'] :: rest, sh, false⟩ =
      (sh.map fun c => Token.Short c none) ++
        Token.DashDash :: rest.map Token.Positional := by
  rw [lexFrom_shorts]
  rw [lexFrom_some (rfl :
    Parse.next ⟨['-', '-'] :: rest, [], false⟩ = some (Token.DashDash, ⟨rest, [], true⟩))]
  rw [lexFrom_posOnly]

/-- C5.  An argument that is exactly `-`, wherever the lexer examines it
(before or after `--`, i.e. in either mode), lexes to `Positional("-")`:
it is never an error, never a short-option token, and the lexer total
function never panics on it. -/
theorem lone_dash_is_positional (rest : List Arg) (po : Bool) :
    lexFrom ⟨['-'] :: rest, [], po⟩ =
      Token.Positional ['-'] :: lexFrom ⟨rest, [], po⟩ := by
  have hs : Parse.next ⟨['-'] :: rest, [], po⟩ =
      some (Token.Positional ['-'], ⟨rest, [], po⟩) := by
    cases po <;> rfl
  exact lexFrom_some hs

/-- A multi-character cluster argument `-kc...` emits its first character
immediately and queues the rest. -/
theorem Parse.next_cluster (k c : Char) (cs : List Char) (rest : List Arg)
    (h : k ≠ '-') :
    Parse.next ⟨('-' :: k :: c :: cs) :: rest, [], false⟩ =
      some (Token.Short k none, ⟨rest, c :: cs, false⟩) := by
  simp [Parse.next, List.isPrefixOf, Ne.symm h]

/-- A single-character short argument `-k` performs value lookahead. -/
theorem Parse.next_single_short (k : Char) (v : Arg) (rest : List Arg)
    (h : k ≠ '-') :
    Parse.next ⟨['-', k] :: v :: rest, [], false⟩ =
      some (Token.Short k (next_value (v :: rest)).1,
        ⟨(next_value (v :: rest)).2, [], false⟩) := by
  simp [Parse.next, List.isPrefixOf, h, Ne.symm h]

/-- C3.  Short-option clusters: a cluster of more than one character emits
one `Short` per character with no value lookahead for any of them, the
queued remainder draining before the next raw argument is touched, while a
lone short option performs value lookahead on the following argument;
concretely `-vvvv` lexes to four bare `Short v` tokens and `-v val` to a
single `Short v` carrying `val`. -/
theorem short_cluster_lexing :
    (∀ (k c : Char) (cs : List Char) (rest : List Arg), k ≠ '-' →
      lexFrom ⟨('-' :: k :: c :: cs) :: rest, [], false⟩ =
        Token.Short k none ::
          (((c :: cs).map fun ch => Token.Short ch none) ++
            lexFrom ⟨rest, [], false⟩))
    ∧ (∀ (k : Char) (v : Arg) (rest : List Arg), k ≠ '-' →
        (v = ['-'] ∨ (['-'].isPrefixOf v) = false) →
        lexFrom ⟨['-', k] :: v :: rest, [], false⟩ =
          Token.Short k (some v) :: lexFrom ⟨rest, [], false⟩)
    ∧ lex (["-vvvv"].map String.toList) =
        [Token.Short 'v' none, Token.Short 'v' none, Token.Short 'v' none,
          Token.Short 'v' none]
    ∧ lex (["-v", "val"].map String.toList) =
        [Token.Short 'v' (some "val".toList)] := by
  refine ⟨?_, ?_, by decide, by decide⟩
  · intro k c cs rest h
    rw [lexFrom_some (Parse.next_cluster k c cs rest h)]
    rw [lexFrom_shorts]
  · intro k v rest h hv
    have hnv : next_value (v :: rest) = (some v, rest) := by
      simp only [next_value]
      rw [if_pos hv]
    rw [lexFrom_some (Parse.next_single_short k v rest h), hnv]

/-- Closed instance of C3: the cluster `-xy` emits `Short x` then the queued
`Short y`, and `-v val` takes `val` as the short option's value. -/
theorem short_cluster_lexing_witness :
    lexFrom ⟨[['-', 'x', 'y']], [], false⟩ =
      Token.Short 'x' none ::
        (([ 'y'].map fun ch => Token.Short ch none) ++ lexFrom ⟨[], [], false⟩) ∧
    lexFrom ⟨[['-', 'v'], "val".toList], [], false⟩ =
      Token.Short 'v' (some "val".toList) :: lexFrom ⟨[], [], false⟩ :=
  ⟨short_cluster_lexing.1 'x' 'y' [] [] (by decide),
    short_cluster_lexing.2.1 'v' "val".toList [] (by decide) (by decide)⟩

/-- C4.  Value lookahead policy of `next_value` (src/token.rs): the next raw
argument is consumed as a value exactly when it is the literal `-` or does
not start with `-`; so `-` is an eligible value while `--`, long-shaped and
short-shaped arguments never are.  The closed conjuncts exercise the policy
through the lexer for a long option and a lone short option. -/
theorem next_value_policy :
    (∀ rest : List Arg, next_value (['-'] :: rest) = (some ['-'], rest))
    ∧ (∀ (x : Arg) (rest : List Arg), (['-'].isPrefixOf x) = true → x ≠ ['-'] →
        next_value (x :: rest) = (none, x :: rest))
    ∧ (∀ (x : Arg) (rest : List Arg), (['-'].isPrefixOf x) = false →
        next_value (x :: rest) = (some x, rest))
    ∧ lex (["--opt", "-"].map String.toList) =
        [Token.Long "opt".toList (some ['-'])]
    ∧ lex (["-k", "-"].map String.toList) = [Token.Short 'k' (some ['-'])]
    ∧ lex (["--opt", "--"].map String.toList) =
        [Token.Long "opt".toList none, Token.DashDash]
    ∧ lex (["--opt", "--long"].map String.toList) =
        [Token.Long "opt".toList none, Token.Long "long".toList none]
    ∧ lex (["-k", "-x"].map String.toList) =
        [Token.Short 'k' none, Token.Short 'x' none] := by
  refine ⟨?_, ?_, ?_, by decide, by decide, by decide, by decide, by decide⟩
  · intro rest
    simp [next_value]
  · intro x rest hpre hne
    simp only [next_value]
    rw [if_neg]
    simp [hpre, hne]
  · intro x rest hpre
    simp only [next_value]
    rw [if_pos (Or.inr hpre)]

/-- Closed instance of C4: `--` is never consumed as a value, while a plain
word is. -/
theorem next_value_policy_witness :
    next_value (['-', '-'] :: [['a']]) = (none, ['-', '-'] :: [['a']]) ∧
      next_value (['a'] :: []) = (some ['a'], []) :=
  ⟨next_value_policy.2.1 ['-', '-'] [['a']] (by decide) (by decide),
    next_value_policy.2.2.1 ['a'] [] (by decide)⟩

/-- src/error.rs `enum Error` (borrowing form): the parse/build failure
taxonomy, with a caller-supplied custom payload type `C`. -/
inductive Error (C : Type) where
  | UnknownOption (t : Token)
  | UnexpectedMulti (t : Token)
  | ExpectedValue (t : Token)
  | UnexpectedValue (t : Token)
  | ExpectedPositional (t : Token)
  | UnexpectedPositional (t : Token)
  | RequiredOption (s : Arg)
  | TooManyOptions (t : Token)
  | Custom (c : C)
deriving DecidableEq, Repr

/-- The incremental builder protocol (src/lib.rs, trait `PollInit` with its
`Default` bound): a default initial state, a per-token accept step
(`poll_init`), and a terminal `finish`.  The Rust `&mut self` mutation is
modelled by returning the successor state next to the optional error. -/
structure PollInit (σ ε α : Type) where
  default : σ
  poll_init : σ → Token → σ × Option ε
  finish : σ → Except ε α

/-- src/lib.rs `fn from_args`: fold every lexed token through `poll_init`,
pushing each reported error onto an accumulating vector, then call `finish`
exactly once; the overall result is `ok` only when the fold produced no
error and `finish` succeeded, and a `finish` error is pushed last. -/
def from_args {σ ε α : Type} (P : PollInit σ ε α) (args : List Arg) :
    Except (List ε) α :=
  let folded := (lex args).foldl
    (fun acc token =>
      match P.poll_init acc.1 token with
      | (s, none) => (s, acc.2)
      | (s, some err) => (s, acc.2 ++ [err]))
    (P.default, ([] : List ε))
  match P.finish folded.1 with
  | .ok res => if folded.2.isEmpty then .ok res else .error folded.2
  | .error e => .error (folded.2 ++ [e])

/-- Reference recursion for the accumulating behaviour: thread the builder
state through a token list and collect the step errors in token order. -/
def pollAll {σ ε α : Type} (P : PollInit σ ε α) : σ → List Token → σ × List ε
  | s, [] => (s, [])
  | s, t :: ts =>
    match P.poll_init s t with
    | (s1, none) => pollAll P s1 ts
    | (s1, some e) =>
      let r := pollAll P s1 ts
      (r.1, e :: r.2)

theorem pollAll_foldl {σ ε α : Type} (P : PollInit σ ε α) :
    ∀ (ts : List Token) (s : σ) (acc : List ε),
      ts.foldl
        (fun acc token =>
          match P.poll_init acc.1 token with
          | (s, none) => (s, acc.2)
          | (s, some err) => (s, acc.2 ++ [err]))
        (s, acc)
      = ((pollAll P s ts).1, acc ++ (pollAll P s ts).2) := by
  intro ts
  induction ts with
  | nil => intro s acc; simp [pollAll]
  | cons t ts ih =>
    intro s acc
    rw [List.foldl_cons]
    match hp : P.poll_init s t with
    | (s1, none) =>
      simp only [pollAll, hp]
      exact ih s1 acc
    | (s1, some e) =>
      simp only [pollAll, hp]
      rw [ih s1 (acc ++ [e])]
      simp

/-- Builder state for the spec's accumulating-driver example: two required
options `a` and `b` holding raw values (the `TestInit` shape of the tests
in src/lib.rs, restricted to its two required options). -/
structure ABInit where
  a : Option Arg
  b : Option Arg
deriving DecidableEq, Repr

/-- `PollInit` implementation for `ABInit`, following the `try_insert` and
`finish` logic of the test builder in src/lib.rs: a second occurrence of an
option reports `UnexpectedMulti` carrying the offending token and leaves
the state unchanged; `finish` reports the first missing required option. -/
def ABPoll : PollInit ABInit (Error Unit) (Arg × Arg) where
  default := ⟨none, none⟩
  poll_init := fun s t =>
    match t with
    | .Short 'a' (some v) =>
      match s.a with
      | some _ => (s, some (.UnexpectedMulti (.Short 'a' (some v))))
      | none => ({ s with a := some v }, none)
    | .Short 'b' (some v) =>
      match s.b with
      | some _ => (s, some (.UnexpectedMulti (.Short 'b' (some v))))
      | none => ({ s with b := some v }, none)
    | t => (s, some (.UnknownOption t))
  finish := fun s =>
    match s with
    | ⟨none, _⟩ => .error (.RequiredOption ['a'])
    | ⟨_, none⟩ => .error (.RequiredOption ['b'])
    | ⟨some x, some y⟩ => .ok (x, y)

/-- C6.  The accumulating driver `from_args` feeds every lexed token to the
accept step regardless of failures, collects the step errors in token
order, calls `finish` exactly once and appends its error last; the result
is `ok` exactly when no step error occurred and `finish` succeeded, and
otherwise the full ordered error list.  In particular, for the builder
requiring options `a` and `b`, arguments supplying `a` twice and `b` never
produce exactly the duplicate-`a` error followed by the
missing-required-`b` error. -/
theorem from_args_collects_errors_in_order :
    (∀ (σ ε α : Type) (P : PollInit σ ε α) (args : List Arg),
      from_args P args =
        match P.finish (pollAll P P.default (lex args)).1,
            (pollAll P P.default (lex args)).2 with
        | .ok res, [] => .ok res
        | .ok _, errs => .error errs
        | .error e, errs => .error (errs ++ [e]))
    ∧ from_args ABPoll (["-a", "1", "-a", "2"].map String.toList) =
        .error [.UnexpectedMulti (.Short 'a' (some ['2'])),
          .RequiredOption ['b']] := by
  constructor
  · intro σ ε α P args
    simp only [from_args, pollAll_foldl, List.nil_append]
    rcases hf : P.finish (pollAll P P.default (lex args)).1 with e | res <;>
      rcases he : (pollAll P P.default (lex args)).2 with _ | ⟨e1, errs⟩ <;>
      simp [hf, he]
  · rfl

/-- src/from_args.rs `struct FromArgsIter`: a lexer state plus the builder
state, the latter `none` once `finish` has been yielded (`init.take()`). -/
structure FromArgsIter (σ : Type) where
  parser : Parse
  init : Option σ

/-- The items yielded by repeated calls of `FromArgsIter::next`
(src/from_args.rs), collected in order: the inner loop feeds lexed tokens
to `poll_init`, yielding each step error as it occurs; when the lexer is
exhausted the single result of `finish` is yielded and the builder state is
taken, after which every further call yields nothing.  `fuel` bounds the
number of lexer steps; any value above `Parse.size` of the lexer state
gives the true run (`fromArgsIterRunAux_irrel`). -/
def fromArgsIterRunAux {σ ε α : Type} (P : PollInit σ ε α) :
    Nat → FromArgsIter σ → List (Except ε α)
  | 0, _ => []
  | fuel + 1, it =>
    match it.init with
    | none => []
    | some s =>
      match it.parser.next with
      | some (t, p1) =>
        match P.poll_init s t with
        | (s1, none) => fromArgsIterRunAux P fuel ⟨p1, some s1⟩
        | (s1, some e) => .error e :: fromArgsIterRunAux P fuel ⟨p1, some s1⟩
      | none => P.finish s :: fromArgsIterRunAux P fuel ⟨it.parser, none⟩

/-- Fuel bound for `fromArgsIterRunAux`: number of pending lexer steps plus
one for the `finish` item. -/
def FromArgsIter.bound {σ : Type} (it : FromArgsIter σ) : Nat :=
  match it.init with
  | none => 0
  | some _ => it.parser.size + 1

theorem fromArgsIterRunAux_irrel {σ ε α : Type} (P : PollInit σ ε α) :
    ∀ n m it, FromArgsIter.bound it < n → FromArgsIter.bound it < m →
      fromArgsIterRunAux P n it = fromArgsIterRunAux P m it := by
  intro n
  induction n with
  | zero => intro m it hn; omega
  | succ n ih =>
    intro m it hn hm
    match m with
    | 0 => omega
    | m + 1 =>
      obtain ⟨p, o⟩ := it
      match o with
      | none => rfl
      | some s =>
        have hb : FromArgsIter.bound ⟨p, some s⟩ = p.size + 1 := rfl
        rw [hb] at hn hm
        show (match p.next with
              | some (t, p1) =>
                match P.poll_init s t with
                | (s1, none) => fromArgsIterRunAux P n ⟨p1, some s1⟩
                | (s1, some e) => .error e :: fromArgsIterRunAux P n ⟨p1, some s1⟩
              | none => P.finish s :: fromArgsIterRunAux P n ⟨p, none⟩) =
            (match p.next with
              | some (t, p1) =>
                match P.poll_init s t with
                | (s1, none) => fromArgsIterRunAux P m ⟨p1, some s1⟩
                | (s1, some e) => .error e :: fromArgsIterRunAux P m ⟨p1, some s1⟩
              | none => P.finish s :: fromArgsIterRunAux P m ⟨p, none⟩)
        match hs : p.next with
        | some (t, p1) =>
          show (match P.poll_init s t with
                | (s1, none) => fromArgsIterRunAux P n ⟨p1, some s1⟩
                | (s1, some e) =>
                  Except.error e :: fromArgsIterRunAux P n ⟨p1, some s1⟩) =
              (match P.poll_init s t with
                | (s1, none) => fromArgsIterRunAux P m ⟨p1, some s1⟩
                | (s1, some e) =>
                  Except.error e :: fromArgsIterRunAux P m ⟨p1, some s1⟩)
          have hlt := Parse.next_size_lt hs
          match hp : P.poll_init s t with
          | (s1, none) =>
            show fromArgsIterRunAux P n ⟨p1, some s1⟩ =
              fromArgsIterRunAux P m ⟨p1, some s1⟩
            exact ih m ⟨p1, some s1⟩ (by simp [FromArgsIter.bound]; omega)
              (by simp [FromArgsIter.bound]; omega)
          | (s1, some e) =>
            show Except.error e :: fromArgsIterRunAux P n ⟨p1, some s1⟩ =
              Except.error e :: fromArgsIterRunAux P m ⟨p1, some s1⟩
            rw [ih m ⟨p1, some s1⟩ (by simp [FromArgsIter.bound]; omega)
              (by simp [FromArgsIter.bound]; omega)]
        | none =>
          show P.finish s :: fromArgsIterRunAux P n ⟨p, none⟩ =
            P.finish s :: fromArgsIterRunAux P m ⟨p, none⟩
          rw [ih m ⟨p, none⟩ (by simp [FromArgsIter.bound]; omega)
            (by simp [FromArgsIter.bound]; omega)]

/-- The full (finite) item sequence of the lazy driver from a given state. -/
def FromArgsIter.run {σ ε α : Type} (P : PollInit σ ε α)
    (it : FromArgsIter σ) : List (Except ε α) :=
  fromArgsIterRunAux P (it.parser.size + 2) it

/-- One-step unfolding of the lazy driver's item sequence. -/
theorem FromArgsIter.run_eq {σ ε α : Type} (P : PollInit σ ε α) (p : Parse)
    (s : σ) :
    FromArgsIter.run P ⟨p, some s⟩ =
      (match p.next with
        | some (t, p1) =>
          match P.poll_init s t with
          | (s1, none) => FromArgsIter.run P ⟨p1, some s1⟩
          | (s1, some e) => Except.error e :: FromArgsIter.run P ⟨p1, some s1⟩
        | none => [P.finish s]) := by
  show (match p.next with
        | some (t, p1) =>
          match P.poll_init s t with
          | (s1, none) => fromArgsIterRunAux P (p.size + 1) ⟨p1, some s1⟩
          | (s1, some e) =>
            Except.error e :: fromArgsIterRunAux P (p.size + 1) ⟨p1, some s1⟩
        | none => P.finish s :: fromArgsIterRunAux P (p.size + 1) ⟨p, none⟩) = _
  match hs : p.next with
  | some (t, p1) =>
    have hlt := Parse.next_size_lt hs
    show (match P.poll_init s t with
          | (s1, none) => fromArgsIterRunAux P (p.size + 1) ⟨p1, some s1⟩
          | (s1, some e) =>
            Except.error e :: fromArgsIterRunAux P (p.size + 1) ⟨p1, some s1⟩) =
        (match P.poll_init s t with
          | (s1, none) => FromArgsIter.run P ⟨p1, some s1⟩
          | (s1, some e) => Except.error e :: FromArgsIter.run P ⟨p1, some s1⟩)
    match hp : P.poll_init s t with
    | (s1, none) =>
      show fromArgsIterRunAux P (p.size + 1) ⟨p1, some s1⟩ =
        FromArgsIter.run P ⟨p1, some s1⟩
      exact fromArgsIterRunAux_irrel P (p.size + 1) (p1.size + 2) ⟨p1, some s1⟩
        (by simp only [FromArgsIter.bound]; omega)
        (by simp only [FromArgsIter.bound]; omega)
    | (s1, some e) =>
      show Except.error e :: fromArgsIterRunAux P (p.size + 1) ⟨p1, some s1⟩ =
        Except.error e :: FromArgsIter.run P ⟨p1, some s1⟩
      rw [fromArgsIterRunAux_irrel P (p.size + 1) (p1.size + 2) ⟨p1, some s1⟩
        (by simp only [FromArgsIter.bound]; omega)
        (by simp only [FromArgsIter.bound]; omega)]
      rfl
  | none =>
    show P.finish s :: fromArgsIterRunAux P (p.size + 1) ⟨p, none⟩ = [P.finish s]
    rfl

/-- Strong-induction helper: the lazy driver's item sequence is the step
errors, in token order, followed by the one `finish` outcome. -/
theorem fromArgsIter_run_spec {σ ε α : Type} (P : PollInit σ ε α) :
    ∀ n p, Parse.size p < n → ∀ s : σ,
      FromArgsIter.run P ⟨p, some s⟩ =
        ((pollAll P s (lexFrom p)).2.map Except.error) ++
          [P.finish (pollAll P s (lexFrom p)).1] := by
  intro n
  induction n with
  | zero => intro p hn; omega
  | succ n ih =>
    intro p hn s
    rw [FromArgsIter.run_eq]
    match hs : p.next with
    | none =>
      rw [lexFrom_none hs]
      simp [pollAll]
    | some (t, p1) =>
      have hlt := Parse.next_size_lt hs
      rw [lexFrom_some hs]
      show (match P.poll_init s t with
            | (s1, none) => FromArgsIter.run P ⟨p1, some s1⟩
            | (s1, some e) => Except.error e :: FromArgsIter.run P ⟨p1, some s1⟩) = _
      match hp : P.poll_init s t with
      | (s1, none) =>
        show FromArgsIter.run P ⟨p1, some s1⟩ = _
        simp only [pollAll, hp]
        exact ih p1 (by omega) s1
      | (s1, some e) =>
        show Except.error e :: FromArgsIter.run P ⟨p1, some s1⟩ = _
        simp only [pollAll, hp, List.map_cons, List.cons_append]
        rw [ih p1 (by omega) s1]

/-- C7.  The lazy driver is a finite, single-pass sequence: it yields each
token-level accept error as it occurs (in token order), then the single
outcome of `finish` as its last item, and nothing once the builder state
has been taken; it always yields at least one item, an empty token stream
yielding exactly the result of `finish` on the untouched default builder. -/
theorem from_args_iter_yields_errors_then_finish :
    (∀ (σ ε α : Type) (P : PollInit σ ε α) (p : Parse) (s : σ),
      FromArgsIter.run P ⟨p, some s⟩ =
        ((pollAll P s (lexFrom p)).2.map Except.error) ++
          [P.finish (pollAll P s (lexFrom p)).1])
    ∧ (∀ (σ ε α : Type) (P : PollInit σ ε α) (p : Parse),
        FromArgsIter.run P ⟨p, none⟩ = ([] : List (Except ε α)))
    ∧ (∀ (σ ε α : Type) (P : PollInit σ ε α),
        FromArgsIter.run P ⟨Token.parse [], some P.default⟩ =
          [P.finish P.default]) := by
  refine ⟨?_, ?_, ?_⟩
  · intro σ ε α P p s
    exact fromArgsIter_run_spec P (p.size + 1) p (by omega) s
  · intro σ ε α P p
    rfl
  · intro σ ε α P
    have h0 : (Token.parse []).next = none := rfl
    have h := fromArgsIter_run_spec P 1 (Token.parse [])
      (by simp [Parse.size, Token.parse]) P.default
    rw [h, lexFrom_none h0]
    simp [pollAll]

/-- Modelled from the spec: per-character terminal display width (the
`unicode_width` crate used by src/dumb_wrap.rs is an external collaborator
whose source is not part of this repository).  Control characters have no
width (`ch.width()` is `None`, `unwrap_or(0)`), characters from the common
East-Asian wide blocks occupy two columns, everything else one. -/
def charWidth (c : Char) : Nat :=
  if c.toNat < 0x20 ∨ c.toNat = 0x7F then 0
  else if 0x1100 ≤ c.toNat ∧ c.toNat ≤ 0x115F then 2
  else if 0x2E80 ≤ c.toNat ∧ c.toNat ≤ 0xA4CF then 2
  else if 0xAC00 ≤ c.toNat ∧ c.toNat ≤ 0xD7A3 then 2
  else if 0xF900 ≤ c.toNat ∧ c.toNat ≤ 0xFAFF then 2
  else if 0xFF00 ≤ c.toNat ∧ c.toNat ≤ 0xFF60 then 2
  else 1

/-- Display width of a string: the sum of its characters' widths
(`UnicodeWidthStr::width`). -/
def strWidth (s : List Char) : Nat :=
  (s.map charWidth).sum

/-- src/dumb_wrap.rs `enum Item`: a line fragment.  Consumers concatenate
`Part` contents as is and insert a newline after each `Break`'s content. -/
inductive Item where
  | Part (s : List Char)
  | Break (s : List Char)
deriving DecidableEq, Repr

/-- The content a line item carries. -/
def Item.text : Item → List Char
  | .Part s => s
  | .Break s => s

/-- Whether a line item is a `Break`. -/
def Item.isBreak : Item → Bool
  | .Part _ => false
  | .Break _ => true

/-- The `scan`/`last` loop inside src/dumb_wrap.rs `fn split_w`: walk the
characters of the input with their position, accumulating the running
width and the position of the last space seen; while the running width
(discounted by one on a space, the source's soft-break hack) stays within
`atW`, record `(last_space, position after this character)`; stop at the
first character that exceeds the limit, returning the last recorded pair
(`(none, 0)` if even the first character did not fit).  Byte indices of
the source are character indices here. -/
def scanW (atW : Nat) :
    List Char → Nat → Nat → Option Nat → Option Nat × Nat → Option Nat × Nat
  | [], _, _, _, acc => acc
  | ch :: rest, i, width, lastSpace, acc =>
    let width1 := width + charWidth ch
    let lastSpace1 := if ch = ' ' then some i else lastSpace
    let w := if ch = ' ' then width1 - 1 else width1
    if w ≤ atW then scanW atW rest (i + 1) width1 lastSpace1 (lastSpace1, i + 1)
    else acc

/-- src/dumb_wrap.rs `fn split_w`: split `s` at display width `at_w`,
preferring the last space within the limit (soft break, the space itself is
removed), falling back to the exact character boundary reached (hard
break); if everything fits the whole string is kept together. -/
def split_w (s : List Char) (atW : Nat) : List Char × List Char :=
  match scanW atW s 0 0 none (none, 0) with
  | (none, hard) => (s.take hard, s.drop hard)
  | (some j, hard) =>
    if hard = s.length then (s, [])
    else (s.take j, (s.drop j).drop 1)

/-- src/dumb_wrap.rs `struct Wrap`: width limit, columns already spent on
the current line, the remaining chunk iterator, and the current text. -/
structure Wrap where
  max : Nat
  spent : Nat
  chunks : List (List Char)
  curr : List Char
deriving DecidableEq, Repr

/-- src/dumb_wrap.rs `impl Iterator for Wrap`, `fn next`: an empty current
text ends the iteration (the empty string doubles as the end-of-input
sentinel); otherwise split the current text at the remaining width,
account the emitted width, and emit a `Part` (line continues) or a `Break`
(line ends, `spent` resets), pulling the next chunk (`unwrap_or("")`) when
the split consumed the whole text.  `usize` subtraction `max - spent` is
modelled by truncated `Nat` subtraction. -/
def Wrap.next (p : Wrap) : Option (Item × Wrap) :=
  if p.curr = [] then none
  else
    let lr := split_w p.curr (p.max - p.spent)
    let spent1 := p.spent + strWidth lr.1
    if p.max > spent1 then
      if lr.2 = [] then
        match p.chunks with
        | [] => some (.Part lr.1, ⟨p.max, spent1, [], []⟩)
        | c :: cs => some (.Part lr.1, ⟨p.max, spent1, cs, c⟩)
      else some (.Break lr.1, ⟨p.max, 0, p.chunks, lr.2⟩)
    else
      if lr.2 = [] then
        match p.chunks with
        | [] => some (.Break lr.1, ⟨p.max, 0, [], []⟩)
        | c :: cs => some (.Break lr.1, ⟨p.max, 0, cs, c⟩)
      else some (.Break lr.1, ⟨p.max, 0, p.chunks, lr.2⟩)

/-- src/dumb_wrap.rs `Wrap::new`: `iter.next().expect("")` makes the first
chunk mandatory; an empty chunk source is a caller error (a panic),
modelled as `none`. -/
def Wrap.new (max : Nat) (chunks : List (List Char)) : Option Wrap :=
  match chunks with
  | [] => none
  | c :: cs => some ⟨max, 0, cs, c⟩

/-- Collect up to `fuel` items of the wrap iterator, with the final state. -/
def Wrap.run : Nat → Wrap → List Item × Wrap
  | 0, p => ([], p)
  | fuel + 1, p =>
    match p.next with
    | none => ([], p)
    | some (it, q) =>
      let r := Wrap.run fuel q
      (it :: r.1, r.2)

/-- C8 (the code does not meet it).  At width limit 0 with current text
`"a"`, `Wrap::next` yields `Break("")` and leaves the state unchanged — a
self-loop of the iterator — so a run never reaches `None` and yields
`Break("")` forever; the state is exactly the one `Wrap::new(0, ["a"])`
constructs.  The empty-chunk-source half of the claim does hold:
`Wrap::new` on an empty source is a caller error. -/
theorem wrap_zero_width_self_loop :
    Wrap.next ⟨0, 0, [], ['a']⟩ = some (Item.Break [], ⟨0, 0, [], ['a']⟩)
    ∧ (∀ n, Wrap.run n ⟨0, 0, [], ['a']⟩ =
        (List.replicate n (Item.Break []), ⟨0, 0, [], ['a']⟩))
    ∧ Wrap.new 0 [['a']] = some ⟨0, 0, [], ['a']⟩
    ∧ (∀ max, Wrap.new max [] = none) := by
  refine ⟨by decide, ?_, rfl, fun max => rfl⟩
  intro n
  induction n with
  | zero => rfl
  | succ n ih =>
    show (match Wrap.next ⟨0, 0, [], ['a']⟩ with
          | none => (([] : List Item), (⟨0, 0, [], ['a']⟩ : Wrap))
          | some (it, q) =>
            let r := Wrap.run n q
            (it :: r.1, r.2)) = _
    rw [show Wrap.next ⟨0, 0, [], ['a']⟩ =
      some (Item.Break [], ⟨0, 0, [], ['a']⟩) by decide]
    rw [show (List.replicate (n + 1) (Item.Break [])) =
      Item.Break [] :: List.replicate n (Item.Break []) from rfl]
    simp [ih]

/-- C10.  An empty current text ends the iteration immediately, whatever
remains queued: every chunk after an empty chunk is silently dropped, the
engine not distinguishing an empty chunk from end of input.  The closed
conjunct shows `["ab", "", "cd"]` at width 100: after `Part("ab")` the
empty chunk is pulled, the next step returns `None`, and `"cd"` is still
pending in the dropped state. -/
theorem wrap_empty_chunk_ends_iteration :
    (∀ (max spent : Nat) (chunks : List (List Char)),
      Wrap.next ⟨max, spent, chunks, []⟩ = none)
    ∧ Wrap.new 100 ["ab".toList, "".toList, "cd".toList] =
        some ⟨100, 0, [[], "cd".toList], "ab".toList⟩
    ∧ Wrap.run 5 ⟨100, 0, [[], "cd".toList], "ab".toList⟩ =
        ([Item.Part "ab".toList], ⟨100, 2, ["cd".toList], []⟩) := by
  refine ⟨fun max spent chunks => rfl, rfl, by decide⟩

/-- Invariant of the `split_w` scan: any recorded soft-break position names
a space character of the string and lies strictly below the recorded hard
position, which never exceeds the string's length. -/
theorem scanW_inv (atW : Nat) (s : List Char) :
    ∀ cs i width ls acc,
      cs = s.drop i →
      (∀ j, ls = some j → j < i ∧ s[j]? = some ' ') →
      (∀ j, acc.1 = some j → j < acc.2 ∧ s[j]? = some ' ') →
      acc.2 ≤ s.length →
      ((∀ j, (scanW atW cs i width ls acc).1 = some j →
          j < (scanW atW cs i width ls acc).2 ∧ s[j]? = some ' ') ∧
        (scanW atW cs i width ls acc).2 ≤ s.length) := by
  intro cs
  induction cs with
  | nil =>
    intro i width ls acc hcs hls hacc hlen
    exact ⟨hacc, hlen⟩
  | cons ch rest ih =>
    intro i width ls acc hcs hls hacc hlen
    have hch : s[i]? = some ch := by
      have h0 := List.getElem?_drop s i 0
      rw [← hcs] at h0
      simpa using h0.symm
    have hrest : rest = s.drop (i + 1) := by
      have h0 := List.tail_drop s i
      rw [← hcs] at h0
      simpa using h0
    have hi1 : i + 1 ≤ s.length := by
      by_contra hc
      rw [List.drop_eq_nil_of_le (by omega)] at hcs
      exact List.noConfusion hcs
    simp only [scanW]
    by_cases hsp : ch = ' '
    · simp only [if_pos hsp]
      split
      · exact ih (i + 1) (width + charWidth ch) _ _ hrest
          (fun j hj => by
            injection hj with hj
            subst hj
            exact ⟨by omega, by rw [hch, hsp]⟩)
          (fun j hj => by
            injection hj with hj
            subst hj
            exact ⟨by omega, by rw [hch, hsp]⟩)
          hi1
      · exact ⟨hacc, hlen⟩
    · simp only [if_neg hsp]
      split
      · exact ih (i + 1) (width + charWidth ch) _ _ hrest
          (fun j hj => ⟨by have := (hls j hj).1; omega, (hls j hj).2⟩)
          (fun j hj => ⟨by have := (hls j hj).1; omega, (hls j hj).2⟩)
          hi1
      · exact ⟨hacc, hlen⟩

/-- Each `split_w` either splits its input exactly (hard break or full
fit), or removes exactly one space between the two halves (soft break), in
which case the right half is nonempty. -/
theorem split_w_spec (s : List Char) (atW : Nat) :
    (split_w s atW).1 ++ (split_w s atW).2 = s ∨
      ((split_w s atW).1 ++ ' ' :: (split_w s atW).2 = s ∧
        (split_w s atW).2 ≠ []) := by
  have hinv := scanW_inv atW s s 0 0 none (none, 0) (by simp)
    (by intro j hj; exact Option.noConfusion hj)
    (by intro j hj; exact Option.noConfusion hj) (by simp)
  unfold split_w
  split
  · left
    exact List.take_append_drop _ s
  · rename_i j hard hsc
    rw [hsc] at hinv
    obtain ⟨hj1, hj2⟩ := hinv.1 j rfl
    have hard_le : hard ≤ s.length := hinv.2
    by_cases hh : hard = s.length
    · rw [if_pos hh]
      left
      simp
    · rw [if_neg hh]
      right
      have hjlt : j < s.length := by omega
      have hdropj : s.drop j = s[j] :: s.drop (j + 1) :=
        List.drop_eq_getElem_cons hjlt
      have hsj : s[j] = ' ' := by
        obtain ⟨h1, h2⟩ := List.getElem?_eq_some.mp hj2
        exact h2
      have hdd : (s.drop j).drop 1 = s.drop (j + 1) := by
        rw [hdropj]
        simp
      constructor
      · show s.take j ++ ' ' :: (s.drop j).drop 1 = s
        rw [hdd]
        calc s.take j ++ ' ' :: s.drop (j + 1)
            = s.take j ++ s.drop j := by rw [hdropj, hsj]
          _ = s := List.take_append_drop j s
      · show (s.drop j).drop 1 ≠ []
        rw [hdd]
        intro hc
        have hlen := congrArg List.length hc
        rw [List.length_drop] at hlen
        simp at hlen
        omega

/-- The raw text a wrap step consumes from the current text: the emitted
content `l`, plus the soft-break space dropped by `split_w` whenever
`l ++ r` does not rebuild the whole text. -/
def consumedOf (curr l r : List Char) : List Char :=
  if l ++ r = curr then l else l ++ [' ']

theorem consumedOf_split (curr : List Char) (atW : Nat) :
    consumedOf curr (split_w curr atW).1 (split_w curr atW).2 ++
        (split_w curr atW).2 = curr ∧
      (consumedOf curr (split_w curr atW).1 (split_w curr atW).2 =
          (split_w curr atW).1 ∨
        (consumedOf curr (split_w curr atW).1 (split_w curr atW).2 =
            (split_w curr atW).1 ++ [' '] ∧ (split_w curr atW).2 ≠ [])) := by
  rcases split_w_spec curr atW with hs | ⟨hs, hr⟩
  · constructor
    · simp only [consumedOf]
      rw [if_pos hs]
      exact hs
    · left
      simp only [consumedOf]
      rw [if_pos hs]
  · have hne : ¬ ((split_w curr atW).1 ++ (split_w curr atW).2 = curr) := by
      intro hc
      have h1 := congrArg List.length hs
      have h2 := congrArg List.length hc
      rw [List.length_append] at h2
      rw [List.length_append, List.length_cons] at h1
      omega
    constructor
    · simp only [consumedOf]
      rw [if_neg hne]
      simpa using hs
    · right
      exact ⟨by simp only [consumedOf]; rw [if_neg hne], hr⟩

/-- `Wrap.next` instrumented with the raw text each step consumes from the
current text. -/
def Wrap.nextC (p : Wrap) : Option ((Item × List Char) × Wrap) :=
  if p.curr = [] then none
  else
    let lr := split_w p.curr (p.max - p.spent)
    let spent1 := p.spent + strWidth lr.1
    let c := consumedOf p.curr lr.1 lr.2
    if p.max > spent1 then
      if lr.2 = [] then
        match p.chunks with
        | [] => some ((.Part lr.1, c), ⟨p.max, spent1, [], []⟩)
        | ch :: cs => some ((.Part lr.1, c), ⟨p.max, spent1, cs, ch⟩)
      else some ((.Break lr.1, c), ⟨p.max, 0, p.chunks, lr.2⟩)
    else
      if lr.2 = [] then
        match p.chunks with
        | [] => some ((.Break lr.1, c), ⟨p.max, 0, [], []⟩)
        | ch :: cs => some ((.Break lr.1, c), ⟨p.max, 0, cs, ch⟩)
      else some ((.Break lr.1, c), ⟨p.max, 0, p.chunks, lr.2⟩)

/-- Dropping the consumed-text decoration recovers the plain iterator. -/
theorem Wrap.nextC_agrees (p : Wrap) :
    p.next = Option.map (fun x => (x.1.1, x.2)) p.nextC := by
  simp only [Wrap.next, Wrap.nextC]
  by_cases h1 : p.curr = []
  · rw [if_pos h1, if_pos h1]
    rfl
  · rw [if_neg h1, if_neg h1]
    by_cases h2 : p.max > p.spent + strWidth (split_w p.curr (p.max - p.spent)).1
    · rw [if_pos h2, if_pos h2]
      by_cases h3 : (split_w p.curr (p.max - p.spent)).2 = []
      · rw [if_pos h3, if_pos h3]
        cases p.chunks <;> rfl
      · rw [if_neg h3, if_neg h3]
        rfl
    · rw [if_neg h2, if_neg h2]
      by_cases h3 : (split_w p.curr (p.max - p.spent)).2 = []
      · rw [if_pos h3, if_pos h3]
        cases p.chunks <;> rfl
      · rw [if_neg h3, if_neg h3]
        rfl

/-- Each wrap step consumes exactly the text it emits — plus one space for
a soft break, and then only on a `Break` — from the front of the pending
text (current text followed by the queued chunks). -/
theorem Wrap.nextC_consumes {p : Wrap} {it : Item} {c : List Char} {q : Wrap}
    (h : p.nextC = some ((it, c), q)) :
    c ++ (q.curr ++ q.chunks.join) = p.curr ++ p.chunks.join ∧
      (c = it.text ∨ (it.isBreak = true ∧ c = it.text ++ [' '])) := by
  obtain ⟨hc1, hc2⟩ := consumedOf_split p.curr (p.max - p.spent)
  simp only [Wrap.nextC] at h
  split at h
  · exact Option.noConfusion h
  · split at h
    · split at h
      · split at h
        · -- Part, split exhausted the text, no further chunk
          have hr0 : (split_w p.curr (p.max - p.spent)).2 = [] := by assumption
          have hch0 : p.chunks = [] := by assumption
          injection h with h1
          injection h1 with h2 h3
          injection h2 with h4 h5
          subst h3
          subst h4
          subst h5
          rw [hr0] at hc1
          simp only [List.append_nil] at hc1
          constructor
          · simp [hch0, hr0, hc1]
          · rcases hc2 with hc2 | ⟨hc2, hr⟩
            · exact Or.inl hc2
            · exact absurd hr0 hr
        · -- Part, split exhausted the text, next chunk pulled
          have hr0 : (split_w p.curr (p.max - p.spent)).2 = [] := by assumption
          rename_i ch cs hch0
          injection h with h1
          injection h1 with h2 h3
          injection h2 with h4 h5
          subst h3
          subst h4
          subst h5
          rw [hr0] at hc1
          simp only [List.append_nil] at hc1
          constructor
          · simp [hch0, hr0, hc1]
          · rcases hc2 with hc2 | ⟨hc2, hr⟩
            · exact Or.inl hc2
            · exact absurd hr0 hr
      · -- Break with a remainder (line continues in the same chunk)
        injection h with h1
        injection h1 with h2 h3
        injection h2 with h4 h5
        subst h3
        subst h4
        subst h5
        constructor
        · show consumedOf p.curr _ _ ++
            ((split_w p.curr (p.max - p.spent)).2 ++ p.chunks.join) = _
          rw [← List.append_assoc, hc1]
        · rcases hc2 with hc2 | ⟨hc2, hr⟩
          · exact Or.inl hc2
          · exact Or.inr ⟨rfl, hc2⟩
    · split at h
      · split at h
        · -- Break, split exhausted the text, no further chunk
          have hr0 : (split_w p.curr (p.max - p.spent)).2 = [] := by assumption
          have hch0 : p.chunks = [] := by assumption
          injection h with h1
          injection h1 with h2 h3
          injection h2 with h4 h5
          subst h3
          subst h4
          subst h5
          rw [hr0] at hc1
          simp only [List.append_nil] at hc1
          constructor
          · simp [hch0, hr0, hc1]
          · rcases hc2 with hc2 | ⟨hc2, hr⟩
            · exact Or.inl hc2
            · exact absurd hr0 hr
        · -- Break, split exhausted the text, next chunk pulled
          have hr0 : (split_w p.curr (p.max - p.spent)).2 = [] := by assumption
          rename_i ch cs hch0
          injection h with h1
          injection h1 with h2 h3
          injection h2 with h4 h5
          subst h3
          subst h4
          subst h5
          rw [hr0] at hc1
          simp only [List.append_nil] at hc1
          constructor
          · simp [hch0, hr0, hc1]
          · rcases hc2 with hc2 | ⟨hc2, hr⟩
            · exact Or.inl hc2
            · exact absurd hr0 hr
      · -- Break with a remainder (width exhausted)
        injection h with h1
        injection h1 with h2 h3
        injection h2 with h4 h5
        subst h3
        subst h4
        subst h5
        constructor
        · show consumedOf p.curr _ _ ++
            ((split_w p.curr (p.max - p.spent)).2 ++ p.chunks.join) = _
          rw [← List.append_assoc, hc1]
        · rcases hc2 with hc2 | ⟨hc2, hr⟩
          · exact Or.inl hc2
          · exact Or.inr ⟨rfl, hc2⟩

/-- Collect up to `fuel` items of the instrumented wrap iterator. -/
def Wrap.runC : Nat → Wrap → List (Item × List Char) × Wrap
  | 0, p => ([], p)
  | fuel + 1, p =>
    match p.nextC with
    | none => ([], p)
    | some (x, q) =>
      let r := Wrap.runC fuel q
      (x :: r.1, r.2)

theorem Wrap.run_succ (fuel : Nat) (p : Wrap) :
    Wrap.run (fuel + 1) p =
      (match p.next with
        | none => ([], p)
        | some (it, q) => (it :: (Wrap.run fuel q).1, (Wrap.run fuel q).2)) := by
  cases hn : p.next with
  | none => simp only [Wrap.run, hn]
  | some x => simp only [Wrap.run, hn]

theorem Wrap.runC_succ (fuel : Nat) (p : Wrap) :
    Wrap.runC (fuel + 1) p =
      (match p.nextC with
        | none => ([], p)
        | some (x, q) => (x :: (Wrap.runC fuel q).1, (Wrap.runC fuel q).2)) := by
  cases hn : p.nextC with
  | none => simp only [Wrap.runC, hn]
  | some x => simp only [Wrap.runC, hn]

/-- Dropping the consumed-text decoration from an instrumented run gives
the plain run. -/
theorem Wrap.runC_agrees : ∀ (fuel : Nat) (p : Wrap),
    Wrap.run fuel p =
      ((Wrap.runC fuel p).1.map Prod.fst, (Wrap.runC fuel p).2) := by
  intro fuel
  induction fuel with
  | zero => intro p; rfl
  | succ fuel ih =>
    intro p
    rw [Wrap.run_succ, Wrap.runC_succ, Wrap.nextC_agrees p]
    cases hc : p.nextC with
    | none => rfl
    | some xq =>
      obtain ⟨⟨it, cc⟩, q⟩ := xq
      simp only [Option.map_some]
      show (it :: (Wrap.run fuel q).1, (Wrap.run fuel q).2) = _
      rw [ih q]
      rfl

/-- Concatenating the consumed texts of any (partial) instrumented run,
followed by the pending text of the final state, rebuilds the initial
pending text; and every item's consumed text is its content, or its
content plus one space for a (necessarily `Break`) soft-break item. -/
theorem Wrap.runC_consumes : ∀ (fuel : Nat) (p : Wrap),
    ((Wrap.runC fuel p).1.map Prod.snd).join ++
        ((Wrap.runC fuel p).2.curr ++ (Wrap.runC fuel p).2.chunks.join) =
      p.curr ++ p.chunks.join ∧
      ∀ x ∈ (Wrap.runC fuel p).1,
        x.2 = x.1.text ∨ (x.1.isBreak = true ∧ x.2 = x.1.text ++ [' ']) := by
  intro fuel
  induction fuel with
  | zero =>
    intro p
    exact ⟨rfl, by intro x hx; exact absurd hx (List.not_mem_nil x)⟩
  | succ fuel ih =>
    intro p
    rw [Wrap.runC_succ]
    cases hc : p.nextC with
    | none => exact ⟨rfl, by intro x hx; exact absurd hx (List.not_mem_nil x)⟩
    | some xq =>
      obtain ⟨⟨it, cc⟩, q⟩ := xq
      obtain ⟨h1, h2⟩ := Wrap.nextC_consumes hc
      obtain ⟨ih1, ih2⟩ := ih q
      constructor
      · show (cc ++ ((Wrap.runC fuel q).1.map Prod.snd).join) ++
            ((Wrap.runC fuel q).2.curr ++ (Wrap.runC fuel q).2.chunks.join) = _
        rw [List.append_assoc, ih1, h1]
      · intro x hx
        show x.2 = x.1.text ∨ (x.1.isBreak = true ∧ x.2 = x.1.text ++ [' '])
        have hx2 : x = (it, cc) ∨ x ∈ (Wrap.runC fuel q).1 := by
          simpa using hx
        rcases hx2 with rfl | hx2
        · exact h2
        · exact ih2 x hx2

/-- Render a sequence of line items as the consumers of the wrap engine
must: `Part` contents verbatim, a newline after each `Break`'s content. -/
def renderItems : List Item → List Char
  | [] => []
  | .Part s :: rest => s ++ renderItems rest
  | .Break s :: rest => s ++ '\n' :: renderItems rest

/-- Counterexample to C9 as stated: at width 1 the text `"ab"` (no spaces,
so the claimed round-trip demands the render reproduce `"ab"` exactly)
wraps to two hard `Break`s, and rendering inserts newlines that were never
in the input. -/
theorem wrap_roundtrip_counterexample :
    Wrap.new 1 ["ab".toList] = some ⟨1, 0, [], "ab".toList⟩
    ∧ (Wrap.run 5 ⟨1, 0, [], "ab".toList⟩).1 =
        [Item.Break ['a'], Item.Break ['b']]
    ∧ (Wrap.run 5 ⟨1, 0, [], "ab".toList⟩).2.next = none
    ∧ renderItems (Wrap.run 5 ⟨1, 0, [], "ab".toList⟩).1 ≠ "ab".toList := by
  decide

/-- C9 amended: for every width, `spent` and chunk sequence, and any number
of steps, each emitted item accounts for exactly its own content of the
input text — a soft-break `Break` additionally consuming the one
break-triggering space (never duplicated), and only a `Break` ever
consuming one — and concatenating these consumed texts in emission order,
followed by the engine's still-pending text, rebuilds the input exactly:
nothing else is added, removed or reordered.  (A hard or exact-fit `Break`
consumes no space, so there the rendered newline is an insertion; the
claimed verbatim newline round-trip fails on such inputs.) -/
theorem wrap_consumed_roundtrip (fuel max spent : Nat)
    (chunks : List (List Char)) (curr : List Char) :
    (((Wrap.runC fuel ⟨max, spent, chunks, curr⟩).1.map Prod.snd).join ++
        ((Wrap.runC fuel ⟨max, spent, chunks, curr⟩).2.curr ++
          (Wrap.runC fuel ⟨max, spent, chunks, curr⟩).2.chunks.join) =
      curr ++ chunks.join)
    ∧ ((Wrap.runC fuel ⟨max, spent, chunks, curr⟩).1.map Prod.fst =
        (Wrap.run fuel ⟨max, spent, chunks, curr⟩).1)
    ∧ (∀ x ∈ (Wrap.runC fuel ⟨max, spent, chunks, curr⟩).1,
        x.2 = x.1.text ∨ (x.1.isBreak = true ∧ x.2 = x.1.text ++ [' '])) := by
  obtain ⟨h1, h2⟩ := Wrap.runC_consumes fuel ⟨max, spent, chunks, curr⟩
  refine ⟨h1, ?_, h2⟩
  rw [Wrap.runC_agrees fuel ⟨max, spent, chunks, curr⟩]

/-- Closed instance of the amended round-trip: at width 5 the single chunk
`"a b"` is emitted as one `Part` whose consumed text is exactly its
content, and the consumed texts rebuild the input. -/
theorem wrap_consumed_roundtrip_witness :
    (((Wrap.runC 5 ⟨5, 0, [], "a b".toList⟩).1.map Prod.snd).join ++
        ((Wrap.runC 5 ⟨5, 0, [], "a b".toList⟩).2.curr ++
          (Wrap.runC 5 ⟨5, 0, [], "a b".toList⟩).2.chunks.join) =
      "a b".toList ++ ([] : List (List Char)).join)
    ∧ ((Wrap.runC 5 ⟨5, 0, [], "a b".toList⟩).1.map Prod.fst =
        (Wrap.run 5 ⟨5, 0, [], "a b".toList⟩).1)
    ∧ ((Item.Part "a b".toList, "a b".toList).2 =
          (Item.Part "a b".toList, "a b".toList).1.text ∨
        ((Item.Part "a b".toList, "a b".toList).1.isBreak = true ∧
          (Item.Part "a b".toList, "a b".toList).2 =
            (Item.Part "a b".toList, "a b".toList).1.text ++ [' '])) := by
  have h := wrap_consumed_roundtrip 5 5 0 [] "a b".toList
  exact ⟨h.1, h.2.1,
    h.2.2 (Item.Part "a b".toList, "a b".toList) (by decide)⟩

/-- The lexer model reproduces the expected token stream of the
repository's own `ast_parse` test (src/token.rs). -/
theorem lex_matches_repository_test :
    lex (["unparsed", "-", "-vvvv", "-v", "val", "-xx", "1", "unp",
        "--python", "48", "--loooong", "-", "-okk", "--", "--option",
        "-x"].map String.toList) =
      [Token.Positional "unparsed".toList,
        Token.Positional ['-'],
        Token.Short 'v' none, Token.Short 'v' none, Token.Short 'v' none,
        Token.Short 'v' none,
        Token.Short 'v' (some "val".toList),
        Token.Short 'x' none, Token.Short 'x' none,
        Token.Positional ['1'],
        Token.Positional "unp".toList,
        Token.Long "python".toList (some "48".toList),
        Token.Long "loooong".toList (some ['-']),
        Token.Short 'o' none, Token.Short 'k' none, Token.Short 'k' none,
        Token.DashDash,
        Token.Positional "--option".toList,
        Token.Positional "-x".toList] := by
  decide

/-- The wrap model reproduces the expected item sequence of the
repository's own `basic_wrap` test (src/dumb_wrap.rs). -/
theorem wrap_matches_repository_test :
    (Wrap.run 20 ⟨12, 0, [" ".toList, "ADDICTED TO OXYGEN".toList],
        "DO NOT BECOME".toList⟩).1 =
      [Item.Break "DO NOT".toList,
        Item.Part "BECOME".toList,
        Item.Part " ".toList,
        Item.Break "ADDIC".toList,
        Item.Break "TED TO".toList,
        Item.Part "OXYGEN".toList] := by
  decide

end Vvvv
